import Mathlib

/-!
Shallow embedding of `pkg/dicomio/reader.go`: a bounded, stateful binary
decoder wrapping an arbitrary sequential byte source, with a stack of
absolute byte-count limits ("scopes") and typed read primitives.

Go `int64` values (limits, byte counts) are modelled as `Int`; the byte
counts involved never approach the 64-bit range in this component, so
two's-complement wrap-around is not modelled.  Fallible operations return
an `Option RErr` alongside the updated reader state; `PopLimit`, which in
Go panics on an empty limit stack, is `Option`-valued on the whole state.
-/

/-- Errors that can surface through the reader.  `eof` is `io.EOF`,
`unexpectedEOF` is `io.ErrUnexpectedEOF`, `insufficientBytesLeft` is the
package-level `ErrorInsufficientBytesLeft`, `limitExceeded` is the error
built by `fmt.Errorf` in `PushLimit` (carrying its two formatted values),
and `srcErr` stands for any other error coming out of the byte source. -/
inductive RErr where
  | eof
  | unexpectedEOF
  | insufficientBytesLeft
  | limitExceeded (newLimit limit : Int)
  | srcErr (code : Nat)
deriving DecidableEq, Repr

/-- One response of the underlying `io.Reader`: up to `data` bytes handed
out, with `err` reported together with the last of those bytes.  A list of
chunks is a deterministic script for an arbitrary `io.Reader`, rich enough
to produce short reads and errors delivered alongside bytes. -/
structure Chunk where
  data : List UInt8
  err : Option RErr
deriving DecidableEq, Repr

/-- A byte source: the script of responses of the wrapped `io.Reader`.  An
exhausted script answers every further call with zero bytes and `io.EOF`. -/
abbrev Source := List Chunk

/-- One call `in.Read(p)` with `len(p) = k`: the head chunk hands out at
most `k` bytes; a chunk whose bytes are all delivered also reports its
error and is consumed; a chunk delivering only part of its bytes keeps the
rest (and its pending error) for the next call. -/
def sourceRead : Source → Nat → List UInt8 × Option RErr × Source
  | [], _ => ([], some RErr.eof, [])
  | c :: rest, k =>
    if k < c.data.length then (c.data.take k, none, ⟨c.data.drop k, c.err⟩ :: rest)
    else (c.data, c.err, rest)

/-- The two values of `binary.ByteOrder` used by this package. -/
inductive ByteOrder where
  | littleEndian
  | bigEndian
deriving DecidableEq, Repr

/-- The `reader` struct of `reader.go`.  The Go field `in` (the wrapped
`io.Reader`) is named `src` here because `in` is reserved in Lean. -/
structure reader where
  src : Source
  bo : ByteOrder
  limit : Int
  bytesRead : Int
  limitStack : List Int
deriving DecidableEq, Repr

/-- `NewReader`: the Go constructor always returns a nil error, so the
embedding returns the state directly (`bytesRead = 0`, empty stack). -/
def NewReader (src : Source) (bo : ByteOrder) (limit : Int) : reader :=
  { src := src, bo := bo, limit := limit, bytesRead := 0, limitStack := [] }

/-- `BytesLeftUntilLimit`: `r.limit - r.bytesRead`. -/
def reader.BytesLeftUntilLimit (r : reader) : Int :=
  r.limit - r.bytesRead

/-- `IsLimitExhausted`: `BytesLeftUntilLimit() <= 0`. -/
def reader.IsLimitExhausted (r : reader) : Bool :=
  r.BytesLeftUntilLimit ≤ 0

/-- The length `p` is clipped to in `reader.Read`: `p = p[:r.BytesLeftUntilLimit()]`
when the caller's buffer is longer than what the current scope permits. -/
def reader.clampedLen (r : reader) (plen : Nat) : Nat :=
  if (plen : Int) > r.BytesLeftUntilLimit then r.BytesLeftUntilLimit.toNat else plen

/-- `reader.Read`: if the limit is hit, an empty buffer succeeds with zero
bytes and any other buffer gets `io.EOF`; otherwise the request is clipped
to the bytes left until the limit and delegated to the source, and
`bytesRead` advances by however many bytes the source delivered (the Go
guard `n >= 0` always holds, byte counts being natural numbers here). -/
def reader.Read (r : reader) (plen : Nat) : List UInt8 × Option RErr × reader :=
  if r.BytesLeftUntilLimit ≤ 0 then
    if plen = 0 then ([], none, r) else ([], some RErr.eof, r)
  else
    ((sourceRead r.src (r.clampedLen plen)).1,
     (sourceRead r.src (r.clampedLen plen)).2.1,
     { r with
        src := (sourceRead r.src (r.clampedLen plen)).2.2,
        bytesRead := r.bytesRead + ((sourceRead r.src (r.clampedLen plen)).1).length })

/-- `PushLimit`: fails (state untouched) when `bytesRead + n` exceeds the
current limit; otherwise appends the current limit to the stack and makes
`bytesRead + n` the new limit.  Go appends at the slice's end and pops from
the end, mirrored here by `++ [·]` / `getLast?` / `dropLast`. -/
def reader.PushLimit (r : reader) (n : Int) : Option RErr × reader :=
  if r.bytesRead + n > r.limit then
    (some (RErr.limitExceeded (r.bytesRead + n) r.limit), r)
  else
    (none, { r with limitStack := r.limitStack ++ [r.limit], limit := r.bytesRead + n })

/-- Termination measure for the read loops: total bytes still scripted plus
one per chunk, so that every source call that returns no error strictly
shrinks it. -/
def srcMeasure : Source → Nat
  | [] => 0
  | c :: rest => c.data.length + 1 + srcMeasure rest

/-- Total number of bytes the source still has scripted. -/
def srcData : Source → Nat
  | [] => 0
  | c :: rest => c.data.length + srcData rest

/-- A source none of whose scripted responses carries an error. -/
def srcNoErr : Source → Bool
  | [] => true
  | c :: rest => c.err.isNone && srcNoErr rest

theorem sourceRead_measure_lt (s : Source) (k : Nat) (hk : 1 ≤ k)
    (h : (sourceRead s k).2.1 = none) :
    srcMeasure (sourceRead s k).2.2 < srcMeasure s := by
  cases s with
  | nil => simp [sourceRead] at h
  | cons c rest =>
    by_cases hlt : k < c.data.length
    · simp only [sourceRead, if_pos hlt, srcMeasure]
      have : (c.data.drop k).length = c.data.length - k := by simp
      omega
    · simp only [sourceRead, if_neg hlt, srcMeasure]
      omega

theorem read_measure_lt (r : reader) (k : Nat) (hk : 1 ≤ k)
    (h : (r.Read k).2.1 = none) :
    srcMeasure (r.Read k).2.2.src < srcMeasure r.src := by
  by_cases hex : r.BytesLeftUntilLimit ≤ 0
  · exfalso
    have hk0 : ¬ k = 0 := by omega
    simp [reader.Read, hex, hk0] at h
  · have hck : 1 ≤ r.clampedLen k := by
      unfold reader.clampedLen
      split
      · unfold reader.BytesLeftUntilLimit at hex ⊢
        omega
      · exact hk
    have h' : (sourceRead r.src (r.clampedLen k)).2.1 = none := by
      simpa [reader.Read, hex] using h
    have := sourceRead_measure_lt r.src (r.clampedLen k) hck h'
    simpa [reader.Read, hex] using this

/-- The size of each read request issued while `io.CopyN(ioutil.Discard, r, n)`
drains `budget` more bytes: `ioutil.Discard`'s `ReadFrom` reads into an
8192-byte scratch buffer, and the `LimitReader` wrapped around `r` clips
that buffer to the remaining budget. -/
def bufLen (budget : Int) : Nat :=
  if budget < 8192 then budget.toNat else 8192

/-- The loop of `io.Copy` as it runs inside `io.CopyN(ioutil.Discard, r, n)`:
`CopyN` wraps `r` in a `LimitReader` with budget `n`, and `Copy` dispatches to
`ioutil.Discard`'s `ReadFrom`, which repeatedly reads into an 8192-byte
scratch buffer until an error.  So each iteration requests
`min(8192, budget)` bytes from `r.Read`; `io.EOF` ends the loop cleanly,
any other error is returned, and delivered bytes always count. -/
def copyLoop (r : reader) (budget written : Int) : Int × Option RErr × reader :=
  if hb : budget ≤ 0 then (written, none, r)
  else if herr : (r.Read (bufLen budget)).2.1 = none then
    copyLoop (r.Read (bufLen budget)).2.2
      (budget - ((r.Read (bufLen budget)).1).length)
      (written + ((r.Read (bufLen budget)).1).length)
  else if (r.Read (bufLen budget)).2.1 = some RErr.eof then
    (written + ((r.Read (bufLen budget)).1).length, none, (r.Read (bufLen budget)).2.2)
  else
    (written + ((r.Read (bufLen budget)).1).length,
     (r.Read (bufLen budget)).2.1,
     (r.Read (bufLen budget)).2.2)
termination_by srcMeasure r.src
decreasing_by exact read_measure_lt r _ (by unfold bufLen; split <;> omega) herr

/-- `io.CopyN(ioutil.Discard, r, n)`: runs the copy loop with budget `n`,
then reports `n, nil` when exactly `n` bytes were copied and turns a clean
short copy into `io.EOF`. -/
def CopyN (r : reader) (n : Int) : Int × Option RErr × reader :=
  if (copyLoop r n 0).1 = n then (n, none, (copyLoop r n 0).2.2)
  else if (copyLoop r n 0).1 < n ∧ (copyLoop r n 0).2.1 = none then
    ((copyLoop r n 0).1, some RErr.eof, (copyLoop r n 0).2.2)
  else copyLoop r n 0

/-- `Skip`: rejects `n` larger than the bytes left until the limit with
`ErrorInsufficientBytesLeft`, otherwise discards via `io.CopyN` and returns
its error. -/
def reader.Skip (r : reader) (n : Int) : Option RErr × reader :=
  if r.BytesLeftUntilLimit < n then (some RErr.insufficientBytesLeft, r)
  else ((CopyN r n).2.1, (CopyN r n).2.2)

/-- The closing lines of `PopLimit`: `last := len(limitStack)-1`, restore
`limit = limitStack[last]` and shrink the stack.  Go's index expression
panics on an empty stack, so the embedding is `Option`-valued: `none` is
the panic. -/
def popLast (r1 : reader) : Option reader :=
  match r1.limitStack.getLast? with
  | none => none
  | some last => some { r1 with limit := last, limitStack := r1.limitStack.dropLast }

/-- `PopLimit`: when the cursor has not reached the current limit, first
discards the remainder via `Skip`, ignoring its error (`_ = r.Skip(...)` in
the source); then pops the last stacked limit via `popLast`. -/
def reader.PopLimit (r : reader) : Option reader :=
  popLast (if r.bytesRead < r.limit then (r.Skip (r.limit - r.bytesRead)).2 else r)

/-- The loop of `io.ReadAtLeast(r, buf, min)` as called from
`io.ReadFull`: keep reading into the not-yet-filled part of the buffer
while fewer than `need` bytes have arrived and no error occurred. -/
def readFullLoop (r : reader) (need : Nat) (acc : List UInt8) :
    List UInt8 × Option RErr × reader :=
  if hlt : acc.length < need then
    if herr : (r.Read (need - acc.length)).2.1 = none then
      readFullLoop (r.Read (need - acc.length)).2.2 need
        (acc ++ (r.Read (need - acc.length)).1)
    else
      (acc ++ (r.Read (need - acc.length)).1,
       (r.Read (need - acc.length)).2.1,
       (r.Read (need - acc.length)).2.2)
  else (acc, none, r)
termination_by srcMeasure r.src
decreasing_by exact read_measure_lt r _ (by omega) herr

/-- `io.ReadFull(r, buf)` with `len(buf) = n`: the read loop followed by
`ReadAtLeast`'s post-processing — a full buffer clears the error, and a
partly filled buffer turns `io.EOF` into `io.ErrUnexpectedEOF`. -/
def ReadFull (r : reader) (n : Nat) : List UInt8 × Option RErr × reader :=
  if n ≤ (readFullLoop r n []).1.length then
    ((readFullLoop r n []).1, none, (readFullLoop r n []).2.2)
  else if 0 < (readFullLoop r n []).1.length ∧ (readFullLoop r n []).2.1 = some RErr.eof then
    ((readFullLoop r n []).1, some RErr.unexpectedEOF, (readFullLoop r n []).2.2)
  else readFullLoop r n []

/-- `ReadString(n)`: `io.ReadFull` into a fresh `n`-byte buffer, then
`string(data)` — the whole buffer, so bytes past a short read stay zero.
The result is kept as the raw byte list (Go strings are byte strings; no
transcoding happens). -/
def reader.ReadString (r : reader) (n : Nat) : List UInt8 × Option RErr × reader :=
  ((ReadFull r n).1 ++ List.replicate (n - (ReadFull r n).1.length) 0,
   (ReadFull r n).2.1,
   (ReadFull r n).2.2)

/-- `binary.LittleEndian.Uint16` / `binary.BigEndian.Uint16` on the two
bytes `io.ReadFull` put into `bs` (the Go bit-or of disjoint shifted bytes
is written as addition).  Any other list shape is unreachable on the
success path of `binary.Read`. -/
def uint16FromBytes (bo : ByteOrder) : List UInt8 → Nat
  | [b0, b1] =>
    match bo with
    | ByteOrder.littleEndian => b0.toNat + 256 * b1.toNat
    | ByteOrder.bigEndian => 256 * b0.toNat + b1.toNat
  | _ => 0

/-- `binary.LittleEndian.Uint32` / `binary.BigEndian.Uint32`. -/
def uint32FromBytes (bo : ByteOrder) : List UInt8 → Nat
  | [b0, b1, b2, b3] =>
    match bo with
    | ByteOrder.littleEndian =>
      b0.toNat + 256 * b1.toNat + 65536 * b2.toNat + 16777216 * b3.toNat
    | ByteOrder.bigEndian =>
      16777216 * b0.toNat + 65536 * b1.toNat + 256 * b2.toNat + b3.toNat
  | _ => 0

/-- The `int16` reinterpretation of a `uint16` bit pattern. -/
def toInt16 (v : Nat) : Int :=
  if v < 32768 then (v : Int) else (v : Int) - 65536

/-- The `int32` reinterpretation of a `uint32` bit pattern. -/
def toInt32 (v : Nat) : Int :=
  if v < 2147483648 then (v : Int) else (v : Int) - 4294967296

/-- `ReadUInt16`: `binary.Read(r, r.bo, &out)` — `io.ReadFull` of 2 bytes
into a scratch buffer, decoded with the configured byte order; on any error
the zero value of `out` is returned alongside it. -/
def reader.ReadUInt16 (r : reader) : Nat × Option RErr × reader :=
  match (ReadFull r 2).2.1 with
  | some e => (0, some e, (ReadFull r 2).2.2)
  | none => (uint16FromBytes r.bo (ReadFull r 2).1, none, (ReadFull r 2).2.2)

/-- `ReadUInt32`: `binary.Read` of 4 bytes, as for `ReadUInt16`. -/
def reader.ReadUInt32 (r : reader) : Nat × Option RErr × reader :=
  match (ReadFull r 4).2.1 with
  | some e => (0, some e, (ReadFull r 4).2.2)
  | none => (uint32FromBytes r.bo (ReadFull r 4).1, none, (ReadFull r 4).2.2)

/-- `ReadInt16`: `binary.Read` of 2 bytes, reinterpreted as signed. -/
def reader.ReadInt16 (r : reader) : Int × Option RErr × reader :=
  match (ReadFull r 2).2.1 with
  | some e => (0, some e, (ReadFull r 2).2.2)
  | none => (toInt16 (uint16FromBytes r.bo (ReadFull r 2).1), none, (ReadFull r 2).2.2)

/-- `ReadInt32`: `binary.Read` of 4 bytes, reinterpreted as signed. -/
def reader.ReadInt32 (r : reader) : Int × Option RErr × reader :=
  match (ReadFull r 4).2.1 with
  | some e => (0, some e, (ReadFull r 4).2.2)
  | none => (toInt32 (uint32FromBytes r.bo (ReadFull r 4).1), none, (ReadFull r 4).2.2)

theorem sourceRead_len_le (s : Source) (k : Nat) : (sourceRead s k).1.length ≤ k := by
  cases s with
  | nil => simp [sourceRead]
  | cons c rest =>
    by_cases hlt : k < c.data.length
    · simp [sourceRead, hlt]
    · simp [sourceRead, hlt]; omega

theorem clampedLen_le (r : reader) (k : Nat) : r.clampedLen k ≤ k := by
  unfold reader.clampedLen
  split <;> omega

theorem read_len_le (r : reader) (k : Nat) : ((r.Read k).1).length ≤ k := by
  unfold reader.Read
  split
  · split <;> simp
  · have h1 := sourceRead_len_le r.src (r.clampedLen k)
    have h2 := clampedLen_le r k
    simp only []
    omega

theorem read_state (r : reader) (k : Nat) :
    (r.Read k).2.2.limit = r.limit ∧ (r.Read k).2.2.limitStack = r.limitStack ∧
    (r.Read k).2.2.bo = r.bo ∧
    (r.Read k).2.2.bytesRead = r.bytesRead + ((r.Read k).1).length := by
  unfold reader.Read
  split
  · split <;> simp
  · simp

theorem read_clean (r : reader) (k : Nat) (hex : 0 < r.BytesLeftUntilLimit)
    (hclean : srcNoErr r.src = true) :
    (srcNoErr (r.Read k).2.2.src = true ∧
     ((r.Read k).1).length + srcData (r.Read k).2.2.src = srcData r.src) ∧
    ((r.Read k).2.1 ≠ none → srcData r.src = 0) := by
  have hex' : ¬ r.BytesLeftUntilLimit ≤ 0 := by omega
  cases hs : r.src with
  | nil =>
    simp [reader.Read, hex', hs, sourceRead, srcNoErr, srcData]
  | cons c rest =>
    rw [hs] at hclean
    simp only [srcNoErr, Bool.and_eq_true, Option.isNone_iff_eq_none] at hclean
    simp only [reader.Read, if_neg hex', hs]
    by_cases hlt : r.clampedLen k < c.data.length
    · simp [sourceRead, hlt, srcNoErr, srcData, hclean.1, hclean.2]
      omega
    · simp [sourceRead, hlt, srcNoErr, srcData, hclean.1, hclean.2]

theorem copyLoop_state (r : reader) (budget written : Int) :
    (copyLoop r budget written).2.2.limit = r.limit ∧
    (copyLoop r budget written).2.2.limitStack = r.limitStack ∧
    (copyLoop r budget written).2.2.bo = r.bo ∧
    (copyLoop r budget written).2.2.bytesRead - r.bytesRead
      = (copyLoop r budget written).1 - written ∧
    r.bytesRead ≤ (copyLoop r budget written).2.2.bytesRead := by
  induction r, budget, written using copyLoop.induct with
  | case1 r budget written hb =>
    rw [copyLoop]
    simp [hb]
  | case2 r budget written hb herr ih =>
    rw [copyLoop]
    simp only [dif_neg hb, dif_pos herr]
    obtain ⟨h1, h2, h3, h5⟩ := read_state r (bufLen budget)
    obtain ⟨i1, i2, i3, i4, i5⟩ := ih
    exact ⟨by rw [i1, h1], by rw [i2, h2], by rw [i3, h3], by omega, by omega⟩
  | case3 r budget written hb herr heof =>
    rw [copyLoop]
    simp only [dif_neg hb, dif_neg herr, if_pos heof]
    obtain ⟨h1, h2, h3, h5⟩ := read_state r (bufLen budget)
    exact ⟨h1, h2, h3, by omega, by omega⟩
  | case4 r budget written hb herr heof =>
    rw [copyLoop]
    simp only [dif_neg hb, dif_neg herr, if_neg heof]
    obtain ⟨h1, h2, h3, h5⟩ := read_state r (bufLen budget)
    exact ⟨h1, h2, h3, by omega, by omega⟩

theorem bufLen_le (budget : Int) (h : 0 < budget) : 1 ≤ bufLen budget ∧ (bufLen budget : Int) ≤ budget := by
  unfold bufLen
  constructor <;> split <;> omega

theorem copyLoop_clean (r : reader) (budget written : Int)
    (h0 : 0 ≤ budget) (hrem : budget ≤ r.limit - r.bytesRead)
    (hclean : srcNoErr r.src = true) (hdata : budget.toNat ≤ srcData r.src) :
    ∃ s', copyLoop r budget written
      = (written + budget, none,
         { r with src := s', bytesRead := r.bytesRead + budget }) := by
  revert h0 hrem hclean hdata
  induction r, budget, written using copyLoop.induct with
  | case1 r budget written hb =>
    intro h0 hrem hclean hdata
    have hz : budget = 0 := le_antisymm hb h0
    subst hz
    refine ⟨r.src, ?_⟩
    rw [copyLoop]
    simp
  | case2 r budget written hb herr ih =>
    intro h0 hrem hclean hdata
    have hex : 0 < r.BytesLeftUntilLimit := by
      unfold reader.BytesLeftUntilLimit; omega
    obtain ⟨hk1, hk2⟩ := bufLen_le budget (by omega)
    have hlen := read_len_le r (bufLen budget)
    obtain ⟨e1, e2, e3, e4⟩ := read_state r (bufLen budget)
    obtain ⟨⟨hc', hd'⟩, _⟩ := read_clean r (bufLen budget) hex hclean
    obtain ⟨s', hs⟩ := ih (by omega) (by rw [e1, e4]; omega) hc' (by omega)
    refine ⟨s', ?_⟩
    rw [copyLoop]
    simp only [dif_neg hb, dif_pos herr]
    rw [hs, e1, e2, e3, e4]
    have h1 : written + ((r.Read (bufLen budget)).1.length : Int)
        + (budget - ((r.Read (bufLen budget)).1.length : Int)) = written + budget := by ring
    have h2 : r.bytesRead + ((r.Read (bufLen budget)).1.length : Int)
        + (budget - ((r.Read (bufLen budget)).1.length : Int)) = r.bytesRead + budget := by ring
    rw [h1, h2]
  | case3 r budget written hb herr heof =>
    intro h0 hrem hclean hdata
    have hex : 0 < r.BytesLeftUntilLimit := by
      unfold reader.BytesLeftUntilLimit; omega
    obtain ⟨_, hz⟩ := read_clean r (bufLen budget) hex hclean
    have := hz herr
    omega
  | case4 r budget written hb herr heof =>
    intro h0 hrem hclean hdata
    have hex : 0 < r.BytesLeftUntilLimit := by
      unfold reader.BytesLeftUntilLimit; omega
    obtain ⟨_, hz⟩ := read_clean r (bufLen budget) hex hclean
    have := hz herr
    omega

theorem readFullLoop_state (r : reader) (need : Nat) (acc : List UInt8) :
    (readFullLoop r need acc).2.2.limit = r.limit ∧
    (readFullLoop r need acc).2.2.limitStack = r.limitStack ∧
    (readFullLoop r need acc).2.2.bo = r.bo ∧
    ∃ ds, (readFullLoop r need acc).1 = acc ++ ds ∧
      (readFullLoop r need acc).2.2.bytesRead = r.bytesRead + ds.length := by
  induction r, need, acc using readFullLoop.induct with
  | case1 r need acc hlt herr ih =>
    rw [readFullLoop]
    simp only [dif_pos hlt, dif_pos herr]
    obtain ⟨e1, e2, e3, e4⟩ := read_state r (need - acc.length)
    obtain ⟨i1, i2, i3, ds', hds, hby⟩ := ih
    refine ⟨by rw [i1, e1], by rw [i2, e2], by rw [i3, e3],
      (r.Read (need - acc.length)).1 ++ ds', by rw [hds, List.append_assoc], ?_⟩
    rw [hby, e4]
    simp [List.length_append]
    omega
  | case2 r need acc hlt herr =>
    rw [readFullLoop]
    simp only [dif_pos hlt, dif_neg herr]
    obtain ⟨e1, e2, e3, e4⟩ := read_state r (need - acc.length)
    exact ⟨e1, e2, e3, (r.Read (need - acc.length)).1, rfl, e4⟩
  | case3 r need acc hlt =>
    rw [readFullLoop]
    simp only [dif_neg hlt]
    exact ⟨trivial, trivial, trivial, [], by simp, by simp⟩

theorem readFullLoop_len_le (r : reader) (need : Nat) (acc : List UInt8)
    (h : acc.length ≤ need) : (readFullLoop r need acc).1.length ≤ need := by
  revert h
  induction r, need, acc using readFullLoop.induct with
  | case1 r need acc hlt herr ih =>
    intro h
    rw [readFullLoop]
    simp only [dif_pos hlt, dif_pos herr]
    have hlen := read_len_le r (need - acc.length)
    exact ih (by simp [List.length_append]; omega)
  | case2 r need acc hlt herr =>
    intro h
    rw [readFullLoop]
    simp only [dif_pos hlt, dif_neg herr]
    have hlen := read_len_le r (need - acc.length)
    simp [List.length_append]
    omega
  | case3 r need acc hlt =>
    intro h
    rw [readFullLoop]
    simp only [dif_neg hlt]
    exact h

theorem readFullLoop_none_len (r : reader) (need : Nat) (acc : List UInt8)
    (h : (readFullLoop r need acc).2.1 = none) :
    need ≤ (readFullLoop r need acc).1.length := by
  revert h
  induction r, need, acc using readFullLoop.induct with
  | case1 r need acc hlt herr ih =>
    rw [readFullLoop]
    simp only [dif_pos hlt, dif_pos herr]
    exact ih
  | case2 r need acc hlt herr =>
    rw [readFullLoop]
    simp only [dif_pos hlt, dif_neg herr]
    intro h
    exact absurd h herr
  | case3 r need acc hlt =>
    rw [readFullLoop]
    simp only [dif_neg hlt]
    intro _
    omega

theorem ReadFull_proj (r : reader) (n : Nat) :
    (ReadFull r n).1 = (readFullLoop r n []).1 ∧
    (ReadFull r n).2.2 = (readFullLoop r n []).2.2 := by
  unfold ReadFull
  split
  · simp
  · split <;> simp

theorem ReadFull_err_none_iff (r : reader) (n : Nat) :
    (ReadFull r n).2.1 = none ↔ (readFullLoop r n []).1.length = n := by
  have hle := readFullLoop_len_le r n [] (by simp)
  unfold ReadFull
  split
  · rename_i h
    simp
    omega
  · rename_i h
    split
    · simp
      omega
    · constructor
      · intro he
        have := readFullLoop_none_len r n [] he
        omega
      · intro hlen
        omega

theorem CopyN_proj (r : reader) (n : Int) : (CopyN r n).2.2 = (copyLoop r n 0).2.2 := by
  unfold CopyN
  split
  · simp
  · split <;> simp

theorem skip_state (r : reader) (n : Int) :
    (r.Skip n).2.limit = r.limit ∧ (r.Skip n).2.limitStack = r.limitStack ∧
    (r.Skip n).2.bo = r.bo ∧ r.bytesRead ≤ (r.Skip n).2.bytesRead := by
  unfold reader.Skip
  split
  · simp
  · obtain ⟨c1, c2, c3, c4, c5⟩ := copyLoop_state r n 0
    have hp := CopyN_proj r n
    simp only [hp]
    exact ⟨c1, c2, c3, c5⟩

theorem ReadFull_mono (r : reader) (n : Nat) : r.bytesRead ≤ (ReadFull r n).2.2.bytesRead := by
  obtain ⟨_, hst⟩ := ReadFull_proj r n
  obtain ⟨_, _, _, ds, _, hby⟩ := readFullLoop_state r n []
  rw [hst, hby]
  omega

theorem readUInt16_proj (r : reader) : (r.ReadUInt16).2.2 = (ReadFull r 2).2.2 := by
  cases h : (ReadFull r 2).2.1 with
  | none => simp [reader.ReadUInt16, h]
  | some e => simp [reader.ReadUInt16, h]

theorem readUInt32_proj (r : reader) : (r.ReadUInt32).2.2 = (ReadFull r 4).2.2 := by
  cases h : (ReadFull r 4).2.1 with
  | none => simp [reader.ReadUInt32, h]
  | some e => simp [reader.ReadUInt32, h]

theorem readInt16_proj (r : reader) : (r.ReadInt16).2.2 = (ReadFull r 2).2.2 := by
  cases h : (ReadFull r 2).2.1 with
  | none => simp [reader.ReadInt16, h]
  | some e => simp [reader.ReadInt16, h]

theorem readInt32_proj (r : reader) : (r.ReadInt32).2.2 = (ReadFull r 4).2.2 := by
  cases h : (ReadFull r 4).2.1 with
  | none => simp [reader.ReadInt32, h]
  | some e => simp [reader.ReadInt32, h]

theorem popLast_bytesRead (r1 : reader) :
    ((popLast r1).getD r1).bytesRead = r1.bytesRead := by
  unfold popLast
  cases h : r1.limitStack.getLast? <;> simp

theorem popLimit_mono (r : reader) : r.bytesRead ≤ (r.PopLimit.getD r).bytesRead := by
  unfold reader.PopLimit
  by_cases hc : r.bytesRead < r.limit
  · rw [if_pos hc]
    have hs := (skip_state r (r.limit - r.bytesRead)).2.2.2
    unfold popLast
    cases hg : ((r.Skip (r.limit - r.bytesRead)).2).limitStack.getLast? with
    | none => simp
    | some last => simpa using hs
  · rw [if_neg hc]
    unfold popLast
    cases hg : r.limitStack.getLast? with
    | none => simp
    | some last => simp

/-- Claim C3: `PushLimit(n)` fails with the limit-exceeds error and leaves
the whole reader state unchanged exactly when `bytesRead + n` exceeds the
currently active limit; otherwise it succeeds, pushes the old limit onto
the stack, and makes `bytesRead + n` the new current limit. -/
theorem pushLimit_guard (r : reader) (n : Int) :
    (r.bytesRead + n > r.limit →
      r.PushLimit n = (some (RErr.limitExceeded (r.bytesRead + n) r.limit), r)) ∧
    (r.bytesRead + n ≤ r.limit →
      r.PushLimit n
        = (none, { r with limitStack := r.limitStack ++ [r.limit], limit := r.bytesRead + n })) := by
  unfold reader.PushLimit
  constructor
  · intro h
    rw [if_pos h]
  · intro h
    rw [if_neg (by omega)]

theorem pushLimit_guard_wit :
    (NewReader [] ByteOrder.littleEndian 5).PushLimit 9
      = (some (RErr.limitExceeded 9 5), NewReader [] ByteOrder.littleEndian 5) ∧
    (NewReader [] ByteOrder.littleEndian 5).PushLimit 3
      = (none, reader.mk [] ByteOrder.littleEndian 3 0 [5]) := by
  constructor
  · have h := (pushLimit_guard (NewReader [] ByteOrder.littleEndian 5) 9).1 (by decide)
    simpa [NewReader] using h
  · have h := (pushLimit_guard (NewReader [] ByteOrder.littleEndian 5) 3).2 (by decide)
    simpa [NewReader] using h

/-- Claim C5: with the current scope exhausted (bytes left until the limit
at most zero), a raw bounded pull of zero bytes succeeds with zero bytes
and a pull of any positive count fails with `io.EOF`, the reader state
untouched either way. -/
theorem read_at_exhausted_scope (r : reader) (n : Nat) (h : r.BytesLeftUntilLimit ≤ 0) :
    r.Read 0 = ([], none, r) ∧ (0 < n → r.Read n = ([], some RErr.eof, r)) := by
  constructor
  · simp [reader.Read, h]
  · intro hn
    have : ¬ n = 0 := by omega
    simp [reader.Read, h, this]

theorem read_at_exhausted_scope_wit :
    (NewReader [⟨[7], none⟩] ByteOrder.littleEndian 0).Read 0
      = ([], none, NewReader [⟨[7], none⟩] ByteOrder.littleEndian 0) ∧
    (NewReader [⟨[7], none⟩] ByteOrder.littleEndian 0).Read 3
      = ([], some RErr.eof, NewReader [⟨[7], none⟩] ByteOrder.littleEndian 0) :=
  ⟨(read_at_exhausted_scope (NewReader [⟨[7], none⟩] ByteOrder.littleEndian 0) 3 (by decide)).1,
   (read_at_exhausted_scope (NewReader [⟨[7], none⟩] ByteOrder.littleEndian 0) 3 (by decide)).2
     (by decide)⟩

/-- Claim C6: on a non-exhausted reader, a raw bounded pull of `n` bytes
requests exactly the clip of `n` to the bytes left until the limit from the
byte source — never more than either bound — returns whatever the source
delivered together with the source's error, and advances `bytesRead` by
exactly the number of bytes delivered, also on a short read or an error
accompanied by bytes. -/
theorem read_clamped_and_accounted (r : reader) (n : Nat) (h : 0 < r.BytesLeftUntilLimit) :
    (r.clampedLen n ≤ n ∧ (r.clampedLen n : Int) ≤ r.BytesLeftUntilLimit) ∧
    (r.Read n).1 = (sourceRead r.src (r.clampedLen n)).1 ∧
    (r.Read n).2.1 = (sourceRead r.src (r.clampedLen n)).2.1 ∧
    (r.Read n).2.2.bytesRead = r.bytesRead + ((r.Read n).1).length := by
  have h' : ¬ r.BytesLeftUntilLimit ≤ 0 := by omega
  refine ⟨⟨clampedLen_le r n, ?_⟩, ?_, ?_, ?_⟩
  · unfold reader.clampedLen
    split <;> omega
  · simp [reader.Read, h']
  · simp [reader.Read, h']
  · simp [reader.Read, h']

theorem read_clamped_and_accounted_wit :
    (NewReader [⟨[7, 8], some (RErr.srcErr 3)⟩] ByteOrder.littleEndian 5).clampedLen 9 = 5 ∧
    ((NewReader [⟨[7, 8], some (RErr.srcErr 3)⟩] ByteOrder.littleEndian 5).Read 9).2.2.bytesRead
      = ((((NewReader [⟨[7, 8], some (RErr.srcErr 3)⟩] ByteOrder.littleEndian 5).Read 9).1).length : Int) := by
  have h := read_clamped_and_accounted
    (NewReader [⟨[7, 8], some (RErr.srcErr 3)⟩] ByteOrder.littleEndian 5) 9 (by decide)
  refine ⟨by decide, ?_⟩
  rw [h.2.2.2]
  simp [NewReader]

/-- Claim C9: `bytesRead` never decreases across any operation of the
interface: the raw pull, the four typed integer reads, the fixed-length
text read, `Skip`, `PushLimit`, and `PopLimit` (when it returns; the two
queries `IsLimitExhausted` and `BytesLeftUntilLimit` do not touch state). -/
theorem bytesRead_monotone (r : reader) :
    (∀ n, r.bytesRead ≤ (r.Read n).2.2.bytesRead) ∧
    r.bytesRead ≤ (r.ReadUInt16).2.2.bytesRead ∧
    r.bytesRead ≤ (r.ReadUInt32).2.2.bytesRead ∧
    r.bytesRead ≤ (r.ReadInt16).2.2.bytesRead ∧
    r.bytesRead ≤ (r.ReadInt32).2.2.bytesRead ∧
    (∀ n, r.bytesRead ≤ (r.ReadString n).2.2.bytesRead) ∧
    (∀ n, r.bytesRead ≤ (r.Skip n).2.bytesRead) ∧
    (∀ n, r.bytesRead ≤ (r.PushLimit n).2.bytesRead) ∧
    r.bytesRead ≤ (r.PopLimit.getD r).bytesRead := by
  refine ⟨?_, ?_, ?_, ?_, ?_, ?_, ?_, ?_, popLimit_mono r⟩
  · intro n
    have := (read_state r n).2.2.2
    omega
  · rw [readUInt16_proj]
    exact ReadFull_mono r 2
  · rw [readUInt32_proj]
    exact ReadFull_mono r 4
  · rw [readInt16_proj]
    exact ReadFull_mono r 2
  · rw [readInt32_proj]
    exact ReadFull_mono r 4
  · intro n
    show r.bytesRead ≤ (ReadFull r n).2.2.bytesRead
    exact ReadFull_mono r n
  · intro n
    exact (skip_state r n).2.2.2
  · intro n
    unfold reader.PushLimit
    split <;> simp

/-- Claim C10: with an empty limit stack and the cursor at or past the
current limit, `PopLimit` hits the out-of-range index `limitStack[len-1]`
and panics; the embedding returns `none` for that panic, so the operation
is not total on this case. -/
theorem popLimit_empty_stack (r : reader) (hstack : r.limitStack = [])
    (hpos : r.limit ≤ r.bytesRead) : r.PopLimit = none := by
  unfold reader.PopLimit
  rw [if_neg (by omega)]
  unfold popLast
  rw [hstack]
  rfl

theorem popLimit_empty_stack_wit :
    (NewReader [] ByteOrder.littleEndian 0).PopLimit = none :=
  popLimit_empty_stack (NewReader [] ByteOrder.littleEndian 0) rfl (by decide)

theorem skip_clean (r : reader) (n : Int) (h1 : n ≤ r.BytesLeftUntilLimit) (h2 : 0 ≤ n)
    (hc : srcNoErr r.src = true) (hd : n.toNat ≤ srcData r.src) :
    ∃ s', r.Skip n = (none, { r with src := s', bytesRead := r.bytesRead + n }) := by
  unfold reader.BytesLeftUntilLimit at h1
  obtain ⟨s', hs⟩ := copyLoop_clean r n 0 h2 (by omega) hc hd
  refine ⟨s', ?_⟩
  unfold reader.Skip
  rw [if_neg (by unfold reader.BytesLeftUntilLimit; omega)]
  unfold CopyN
  rw [hs]
  simp

theorem popLast_of_ne (r1 : reader) (h : r1.limitStack ≠ []) :
    ∃ r', popLast r1 = some r' ∧ r'.bytesRead = r1.bytesRead := by
  unfold popLast
  cases hg : r1.limitStack.getLast? with
  | none => exact absurd (by simpa using hg) h
  | some last => exact ⟨_, rfl, rfl⟩

theorem popLast_concat (r1 : reader) (xs : List Int) (a : Int) (h : r1.limitStack = xs ++ [a]) :
    popLast r1 = some { r1 with limit := a, limitStack := xs } := by
  unfold popLast
  rw [h]
  simp

/-- Claim C1 (amended): after `PopLimit` on a reader with a non-empty limit
stack whose cursor has not overshot its limit, `bytesRead` equals the limit
of the scope just exited — provided the byte source supplies the remaining
bytes of the scope without error, since the error of the internal `Skip` is
discarded. -/
theorem popLimit_exact_boundary (r : reader) (hstack : r.limitStack ≠ [])
    (hle : r.bytesRead ≤ r.limit) (hclean : srcNoErr r.src = true)
    (hdata : (r.limit - r.bytesRead).toNat ≤ srcData r.src) :
    ∃ r', r.PopLimit = some r' ∧ r'.bytesRead = r.limit := by
  unfold reader.PopLimit
  by_cases hc : r.bytesRead < r.limit
  · rw [if_pos hc]
    obtain ⟨s', hs⟩ := skip_clean r (r.limit - r.bytesRead)
      (by unfold reader.BytesLeftUntilLimit; omega) (by omega) hclean hdata
    rw [hs]
    obtain ⟨r', hp, hb⟩ := popLast_of_ne
      { r with src := s', bytesRead := r.bytesRead + (r.limit - r.bytesRead) }
      (by simpa using hstack)
    refine ⟨r', hp, ?_⟩
    rw [hb]
    simp
  · rw [if_neg hc]
    obtain ⟨r', hp, hb⟩ := popLast_of_ne r hstack
    exact ⟨r', hp, by omega⟩

theorem popLimit_exact_boundary_wit :
    ∃ r', (reader.mk [⟨[7, 7, 7], none⟩] ByteOrder.littleEndian 2 0 [9]).PopLimit = some r' ∧
      r'.bytesRead = (reader.mk [⟨[7, 7, 7], none⟩] ByteOrder.littleEndian 2 0 [9]).limit :=
  popLimit_exact_boundary (reader.mk [⟨[7, 7, 7], none⟩] ByteOrder.littleEndian 2 0 [9])
    (by decide) (by decide) (by decide) (by decide)

/-- Claim C2 (amended): `PushLimit(n)` with `n ≥ 0` followed immediately by
`PopLimit` advances `bytesRead` by exactly `n` and restores both the prior
limit and the prior limit stack — provided the byte source supplies the
`n` bytes the implicit discard pulls without error, since the error of the
internal `Skip` is discarded. -/
theorem pushLimit_popLimit_roundtrip (r : reader) (n : Int)
    (hpush : r.bytesRead + n ≤ r.limit) (hn : 0 ≤ n)
    (hclean : srcNoErr r.src = true) (hdata : n.toNat ≤ srcData r.src) :
    (r.PushLimit n).1 = none ∧
    ∃ r', ((r.PushLimit n).2).PopLimit = some r' ∧
      r'.bytesRead = r.bytesRead + n ∧ r'.limit = r.limit ∧ r'.limitStack = r.limitStack := by
  have hpu : r.PushLimit n
      = (none, { r with limitStack := r.limitStack ++ [r.limit], limit := r.bytesRead + n }) := by
    unfold reader.PushLimit
    rw [if_neg (by omega)]
  rw [hpu]
  refine ⟨rfl, ?_⟩
  unfold reader.PopLimit
  by_cases hc : 0 < n
  · rw [if_pos (by simpa using hc)]
    obtain ⟨s', hs⟩ := skip_clean
      { r with limitStack := r.limitStack ++ [r.limit], limit := r.bytesRead + n }
      ((r.bytesRead + n) - r.bytesRead)
      (by unfold reader.BytesLeftUntilLimit; simp) (by omega) (by simpa using hclean)
      (by simpa using hdata)
    simp only at hs
    rw [hs]
    rw [popLast_concat _ r.limitStack r.limit (by simp)]
    refine ⟨_, rfl, ?_, by simp, by simp⟩
    simp
  · rw [if_neg (by simpa using hc)]
    rw [popLast_concat _ r.limitStack r.limit (by simp)]
    refine ⟨_, rfl, ?_, by simp, by simp⟩
    simp
    omega

theorem pushLimit_popLimit_roundtrip_wit :
    ((NewReader [⟨[1, 2, 3], none⟩] ByteOrder.littleEndian 3).PushLimit 2).1 = none ∧
    ∃ r', (((NewReader [⟨[1, 2, 3], none⟩] ByteOrder.littleEndian 3).PushLimit 2).2).PopLimit
        = some r' ∧
      r'.bytesRead = (NewReader [⟨[1, 2, 3], none⟩] ByteOrder.littleEndian 3).bytesRead + 2 ∧
      r'.limit = (NewReader [⟨[1, 2, 3], none⟩] ByteOrder.littleEndian 3).limit ∧
      r'.limitStack = (NewReader [⟨[1, 2, 3], none⟩] ByteOrder.littleEndian 3).limitStack :=
  pushLimit_popLimit_roundtrip (NewReader [⟨[1, 2, 3], none⟩] ByteOrder.littleEndian 3) 2
    (by decide) (by decide) (by decide) (by decide)

/-- Claim C1 counterexample: on a reader whose byte source is already dry
(an `io.Reader` at end of stream), `PopLimit` returns with `bytesRead`
still short of the limit of the scope just exited, because the implicit
`Skip` fails with `io.EOF` and that error is discarded. -/
theorem popLimit_exact_boundary_cex :
    (reader.mk [] ByteOrder.littleEndian 5 0 [10]).PopLimit
      = some (reader.mk [] ByteOrder.littleEndian 10 0 []) ∧
    ((reader.mk [] ByteOrder.littleEndian 5 0 [10]).PopLimit.getD
        (reader.mk [] ByteOrder.littleEndian 5 0 [10])).bytesRead
      ≠ (reader.mk [] ByteOrder.littleEndian 5 0 [10]).limit := by
  have hcl : copyLoop (reader.mk [] ByteOrder.littleEndian 5 0 [10]) 5 0
      = (0, none, reader.mk [] ByteOrder.littleEndian 5 0 [10]) := by
    rw [copyLoop]
    simp [reader.Read, reader.BytesLeftUntilLimit, reader.clampedLen, sourceRead, bufLen]
  have hsk : (reader.mk [] ByteOrder.littleEndian 5 0 [10]).Skip 5
      = (some RErr.eof, reader.mk [] ByteOrder.littleEndian 5 0 [10]) := by
    unfold reader.Skip CopyN
    rw [hcl]
    decide
  have hpop : (reader.mk [] ByteOrder.littleEndian 5 0 [10]).PopLimit
      = some (reader.mk [] ByteOrder.littleEndian 10 0 []) := by
    unfold reader.PopLimit
    rw [if_pos (by decide)]
    rw [show ((reader.mk [] ByteOrder.littleEndian 5 0 [10]).limit
          - (reader.mk [] ByteOrder.littleEndian 5 0 [10]).bytesRead) = 5 from by decide]
    rw [hsk]
    decide
  exact ⟨hpop, by rw [hpop]; decide⟩

/-- Claim C2 counterexample: on a reader whose byte source is already dry,
`PushLimit(2)` immediately followed by `PopLimit` leaves `bytesRead`
advanced by 0 rather than 2 (the limit itself is restored correctly): the
implicit discard hits `io.EOF` and the error is swallowed. -/
theorem pushLimit_popLimit_roundtrip_cex :
    (((NewReader [] ByteOrder.littleEndian 5).PushLimit 2).2).PopLimit
      = some (reader.mk [] ByteOrder.littleEndian 5 0 []) ∧
    ((((NewReader [] ByteOrder.littleEndian 5).PushLimit 2).2).PopLimit.getD
        (NewReader [] ByteOrder.littleEndian 5)).bytesRead
      ≠ (NewReader [] ByteOrder.littleEndian 5).bytesRead + 2 := by
  have hcl : copyLoop (reader.mk [] ByteOrder.littleEndian 2 0 [5]) 2 0
      = (0, none, reader.mk [] ByteOrder.littleEndian 2 0 [5]) := by
    rw [copyLoop]
    simp [reader.Read, reader.BytesLeftUntilLimit, reader.clampedLen, sourceRead, bufLen]
  have hsk : (reader.mk [] ByteOrder.littleEndian 2 0 [5]).Skip 2
      = (some RErr.eof, reader.mk [] ByteOrder.littleEndian 2 0 [5]) := by
    unfold reader.Skip CopyN
    rw [hcl]
    decide
  have hpu : ((NewReader [] ByteOrder.littleEndian 5).PushLimit 2).2
      = reader.mk [] ByteOrder.littleEndian 2 0 [5] := by decide
  have hpop : (((NewReader [] ByteOrder.littleEndian 5).PushLimit 2).2).PopLimit
      = some (reader.mk [] ByteOrder.littleEndian 5 0 []) := by
    rw [hpu]
    unfold reader.PopLimit
    rw [if_pos (by decide)]
    rw [show ((reader.mk [] ByteOrder.littleEndian 2 0 [5]).limit
          - (reader.mk [] ByteOrder.littleEndian 2 0 [5]).bytesRead) = 2 from by decide]
    rw [hsk]
    decide
  exact ⟨hpop, by rw [hpop]; decide⟩

/-- Claim C4 (amended): `Skip(n)` fails with
`ErrorInsufficientBytesLeft` and consumes nothing when `n` exceeds the
bytes left until the limit; otherwise, for `n ≥ 0` and a byte source that
supplies the `n` bytes without error, it succeeds and advances `bytesRead`
by exactly `n` (on a source failure the underlying error is propagated
instead, with whatever bytes the source delivered already consumed). -/
theorem skip_all_or_nothing (r : reader) (n : Int) :
    (r.BytesLeftUntilLimit < n → r.Skip n = (some RErr.insufficientBytesLeft, r)) ∧
    (n ≤ r.BytesLeftUntilLimit → 0 ≤ n → srcNoErr r.src = true → n.toNat ≤ srcData r.src →
      ∃ s', r.Skip n = (none, { r with src := s', bytesRead := r.bytesRead + n })) := by
  constructor
  · intro h
    unfold reader.Skip
    rw [if_pos h]
  · intro h1 h2 hc hd
    exact skip_clean r n h1 h2 hc hd

theorem skip_all_or_nothing_wit :
    (NewReader [⟨[1, 2, 3], none⟩] ByteOrder.littleEndian 9).Skip 10
      = (some RErr.insufficientBytesLeft, NewReader [⟨[1, 2, 3], none⟩] ByteOrder.littleEndian 9) ∧
    ∃ s', (NewReader [⟨[1, 2, 3], none⟩] ByteOrder.littleEndian 3).Skip 2
      = (none, { NewReader [⟨[1, 2, 3], none⟩] ByteOrder.littleEndian 3 with
          src := s',
          bytesRead := (NewReader [⟨[1, 2, 3], none⟩] ByteOrder.littleEndian 3).bytesRead + 2 }) :=
  ⟨(skip_all_or_nothing (NewReader [⟨[1, 2, 3], none⟩] ByteOrder.littleEndian 9) 10).1 (by decide),
   (skip_all_or_nothing (NewReader [⟨[1, 2, 3], none⟩] ByteOrder.littleEndian 3) 2).2
     (by decide) (by decide) (by decide) (by decide)⟩

/-- Claim C4 counterexample: with 5 bytes left until the limit but a dry
byte source, `Skip(2)` neither fails with the insufficient-bytes error nor
succeeds: it propagates `io.EOF` from the discard loop, refuting the
two-way dichotomy as stated. -/
theorem skip_all_or_nothing_cex :
    ¬ (NewReader [] ByteOrder.littleEndian 5).BytesLeftUntilLimit < 2 ∧
    ((NewReader [] ByteOrder.littleEndian 5).Skip 2).1 = some RErr.eof := by
  have hcl : copyLoop (NewReader [] ByteOrder.littleEndian 5) 2 0
      = (0, none, NewReader [] ByteOrder.littleEndian 5) := by
    rw [copyLoop]
    simp [reader.Read, reader.BytesLeftUntilLimit, NewReader, reader.clampedLen, sourceRead, bufLen]
  constructor
  · decide
  · unfold reader.Skip CopyN
    rw [hcl]
    decide

/-- Claim C7: a reader constructed over a byte source whose next response
supplies the two bytes 0x01 0x00, with a limit of at least 2, reads an
unsigned 16-bit value of 1 when constructed little-endian and 256 when
constructed big-endian, with no error: typed integer reads interpret raw
bytes according to the configured byte order. -/
theorem readUInt16_byte_order (s : Source) (limit : Int) (hlim : 2 ≤ limit) :
    ((NewReader (⟨[1, 0], none⟩ :: s) ByteOrder.littleEndian limit).ReadUInt16).1 = 1 ∧
    ((NewReader (⟨[1, 0], none⟩ :: s) ByteOrder.littleEndian limit).ReadUInt16).2.1 = none ∧
    ((NewReader (⟨[1, 0], none⟩ :: s) ByteOrder.bigEndian limit).ReadUInt16).1 = 256 ∧
    ((NewReader (⟨[1, 0], none⟩ :: s) ByteOrder.bigEndian limit).ReadUInt16).2.1 = none := by
  have main : ∀ bo : ByteOrder,
      ReadFull (NewReader (⟨[1, 0], none⟩ :: s) bo limit) 2
        = ([1, 0], none,
           { NewReader (⟨[1, 0], none⟩ :: s) bo limit with src := s, bytesRead := 2 }) := by
    intro bo
    have hex : ¬ (NewReader (⟨[1, 0], none⟩ :: s) bo limit).BytesLeftUntilLimit ≤ 0 := by
      simp [NewReader, reader.BytesLeftUntilLimit]
      omega
    have hclamp : (NewReader (⟨[1, 0], none⟩ :: s) bo limit).clampedLen 2 = 2 := by
      unfold reader.clampedLen
      rw [if_neg]
      simp [NewReader, reader.BytesLeftUntilLimit]
      omega
    have hread : (NewReader (⟨[1, 0], none⟩ :: s) bo limit).Read 2
        = ([1, 0], none,
           { NewReader (⟨[1, 0], none⟩ :: s) bo limit with src := s, bytesRead := 2 }) := by
      unfold reader.Read
      rw [if_neg hex, hclamp]
      simp [sourceRead, NewReader]
    have hloop : readFullLoop (NewReader (⟨[1, 0], none⟩ :: s) bo limit) 2 []
        = ([1, 0], none,
           { NewReader (⟨[1, 0], none⟩ :: s) bo limit with src := s, bytesRead := 2 }) := by
      rw [readFullLoop]
      simp only [List.length_nil, Nat.sub_zero, List.nil_append, Nat.zero_lt_two, dif_pos]
      rw [hread]
      simp only []
      rw [readFullLoop]
      simp
    unfold ReadFull
    rw [hloop]
    simp
  refine ⟨?_, ?_, ?_, ?_⟩
  · unfold reader.ReadUInt16
    rw [main ByteOrder.littleEndian]
    simp [uint16FromBytes, NewReader]
  · unfold reader.ReadUInt16
    rw [main ByteOrder.littleEndian]
  · unfold reader.ReadUInt16
    rw [main ByteOrder.bigEndian]
    simp [uint16FromBytes, NewReader]
  · unfold reader.ReadUInt16
    rw [main ByteOrder.bigEndian]

theorem readUInt16_byte_order_wit :
    ((NewReader [⟨[1, 0], none⟩] ByteOrder.littleEndian 2).ReadUInt16).1 = 1 ∧
    ((NewReader [⟨[1, 0], none⟩] ByteOrder.littleEndian 2).ReadUInt16).2.1 = none ∧
    ((NewReader [⟨[1, 0], none⟩] ByteOrder.bigEndian 2).ReadUInt16).1 = 256 ∧
    ((NewReader [⟨[1, 0], none⟩] ByteOrder.bigEndian 2).ReadUInt16).2.1 = none :=
  readUInt16_byte_order [] 2 (by decide)

theorem readFull_eval_short :
    ReadFull (NewReader [⟨[65], none⟩] ByteOrder.littleEndian 9) 3
      = ([65], some RErr.unexpectedEOF, reader.mk [] ByteOrder.littleEndian 9 1 []) := by
  have hread1 : (NewReader [⟨[65], none⟩] ByteOrder.littleEndian 9).Read 3
      = ([65], none, reader.mk [] ByteOrder.littleEndian 9 1 []) := by decide
  have hread2 : (reader.mk [] ByteOrder.littleEndian 9 1 []).Read 2
      = ([], some RErr.eof, reader.mk [] ByteOrder.littleEndian 9 1 []) := by decide
  have hloop : readFullLoop (NewReader [⟨[65], none⟩] ByteOrder.littleEndian 9) 3 []
      = ([65], some RErr.eof, reader.mk [] ByteOrder.littleEndian 9 1 []) := by
    rw [readFullLoop]
    simp [hread1]
    rw [readFullLoop]
    simp [hread2]
  unfold ReadFull
  rw [hloop]
  decide

theorem readFull_eval_full :
    ReadFull (NewReader [⟨[65, 66], none⟩] ByteOrder.littleEndian 9) 2
      = ([65, 66], none, reader.mk [] ByteOrder.littleEndian 9 2 []) := by
  have hread1 : (NewReader [⟨[65, 66], none⟩] ByteOrder.littleEndian 9).Read 2
      = ([65, 66], none, reader.mk [] ByteOrder.littleEndian 9 2 []) := by decide
  have hloop : readFullLoop (NewReader [⟨[65, 66], none⟩] ByteOrder.littleEndian 9) 2 []
      = ([65, 66], none, reader.mk [] ByteOrder.littleEndian 9 2 []) := by
    rw [readFullLoop]
    simp [hread1]
    rw [readFullLoop]
    simp
  unfold ReadFull
  rw [hloop]
  decide

/-- Claim C8 (amended): `ReadString(n)` always returns an `n`-byte string:
on success it is exactly the `n` raw bytes obtained from the source,
untranscoded, and `bytesRead` has advanced by exactly `n`; on a partial
failure the string is the bytes that were read padded with zero bytes up
to length `n`, paired with the error. -/
theorem readString_exact (r : reader) (n : Nat) :
    ((r.ReadString n).1).length = n ∧
    ((r.ReadString n).2.1 = none →
      (r.ReadString n).1 = (ReadFull r n).1 ∧
      (r.ReadString n).2.2.bytesRead = r.bytesRead + n) ∧
    (∀ e, (r.ReadString n).2.1 = some e →
      (r.ReadString n).1
        = (ReadFull r n).1 ++ List.replicate (n - ((ReadFull r n).1).length) 0 ∧
      (ReadFull r n).2.1 = some e) := by
  have hlen : ((readFullLoop r n []).1).length ≤ n := readFullLoop_len_le r n [] (by simp)
  obtain ⟨hp1, hp2⟩ := ReadFull_proj r n
  obtain ⟨_, _, _, ds, hds, hby⟩ := readFullLoop_state r n []
  simp only [List.nil_append] at hds
  refine ⟨?_, ?_, ?_⟩
  · show (((ReadFull r n).1 ++ List.replicate (n - ((ReadFull r n).1).length) 0)).length = n
    rw [hp1]
    simp
    omega
  · intro hnone
    have heq : ((readFullLoop r n []).1).length = n := (ReadFull_err_none_iff r n).1 hnone
    constructor
    · show (ReadFull r n).1 ++ List.replicate (n - ((ReadFull r n).1).length) 0 = (ReadFull r n).1
      rw [hp1, heq]
      simp
    · show (ReadFull r n).2.2.bytesRead = r.bytesRead + n
      rw [hp2, hby]
      rw [hds] at heq
      rw [heq]
  · intro e he
    exact ⟨rfl, he⟩

theorem readString_exact_wit :
    (((NewReader [⟨[65, 66], none⟩] ByteOrder.littleEndian 9).ReadString 2).1
        = (ReadFull (NewReader [⟨[65, 66], none⟩] ByteOrder.littleEndian 9) 2).1 ∧
      ((NewReader [⟨[65, 66], none⟩] ByteOrder.littleEndian 9).ReadString 2).2.2.bytesRead
        = (NewReader [⟨[65, 66], none⟩] ByteOrder.littleEndian 9).bytesRead + 2) ∧
    (((NewReader [⟨[65], none⟩] ByteOrder.littleEndian 9).ReadString 3).1
        = (ReadFull (NewReader [⟨[65], none⟩] ByteOrder.littleEndian 9) 3).1
          ++ List.replicate
              (3 - ((ReadFull (NewReader [⟨[65], none⟩] ByteOrder.littleEndian 9) 3).1).length) 0 ∧
      (ReadFull (NewReader [⟨[65], none⟩] ByteOrder.littleEndian 9) 3).2.1
        = some RErr.unexpectedEOF) := by
  constructor
  · exact (readString_exact (NewReader [⟨[65, 66], none⟩] ByteOrder.littleEndian 9) 2).2.1
      (by show (ReadFull (NewReader [⟨[65, 66], none⟩] ByteOrder.littleEndian 9) 2).2.1 = none
          rw [readFull_eval_full])
  · exact (readString_exact (NewReader [⟨[65], none⟩] ByteOrder.littleEndian 9) 3).2.2
      RErr.unexpectedEOF
      (by show (ReadFull (NewReader [⟨[65], none⟩] ByteOrder.littleEndian 9) 3).2.1
            = some RErr.unexpectedEOF
          rw [readFull_eval_short])

/-- Claim C8 counterexample: `ReadString(3)` over a source that supplies a
single byte 0x41 and then hits end of stream returns the full 3-byte
buffer — 0x41 followed by two zero bytes — paired with
`io.ErrUnexpectedEOF`, not just the byte that was actually read. -/
theorem readString_exact_cex :
    ((NewReader [⟨[65], none⟩] ByteOrder.littleEndian 9).ReadString 3).1 = [65, 0, 0] ∧
    ((NewReader [⟨[65], none⟩] ByteOrder.littleEndian 9).ReadString 3).2.1
      = some RErr.unexpectedEOF ∧
    ¬ ((NewReader [⟨[65], none⟩] ByteOrder.littleEndian 9).ReadString 3).1 = [65] := by
  unfold reader.ReadString
  rw [readFull_eval_short]
  decide
